import Mathlib

/-!
# Core types of type parameters (`cmd/compile/internal/types2/under.go`)

A shallow embedding of `under`, `match`, `coreType` and `coreString`.

Go's `Type` is an interface value. A non-nil `Type` is a value of `Ty`; a
possibly-nil `Type` (the accumulator `su`, the argument handed to the visitor,
the results of `match`, `coreType` and `coreString`) is an `Option Ty`, with
`none` for `nil`.
-/

namespace Types2

/-- Modelled from the spec: the direction of a channel type (the declaration of
`ChanDir` is not part of `under.go`). `SendRecv` is the unrestricted
(bidirectional) direction, `SendOnly` and `RecvOnly` are the restricted ones. -/
inductive ChanDir
  | SendRecv
  | SendOnly
  | RecvOnly
  deriving DecidableEq, Repr

/-- Modelled from the spec: the kinds of basic types (the declaration of
`BasicKind` is not part of `under.go`). `byte` is an alias of `Uint8`. -/
inductive BasicKind
  | Invalid
  | Bool
  | Int
  | Int8
  | Int16
  | Int32
  | Int64
  | Uint
  | Uint8
  | Uint16
  | Uint32
  | Uint64
  | Uintptr
  | Float32
  | Float64
  | Complex64
  | Complex128
  | String
  | UnsafePointer
  | UntypedBool
  | UntypedInt
  | UntypedRune
  | UntypedFloat
  | UntypedComplex
  | UntypedString
  | UntypedNil
  deriving DecidableEq, Repr

/-- Modelled from the spec: the closed variant of types (the declarations of
`Type`, `Basic`, `Slice`, `Chan`, `Named`, `TypeParam` are not part of
`under.go`). A `Named` type stores its resolved underlying type; a `TypeParam`
carries the underlying types of the terms of its constraint set in enumeration
order, `none` standing for the `nil` that the enumeration may hand to its
visitor. `Array`, `Pointer`, `Map` and `Other` are the pass-through structural
kinds, matched by identity only. -/
inductive Ty
  | Basic (kind : BasicKind)
  | Array (len : Nat) (elem : Ty)
  | Slice (elem : Ty)
  | Pointer (base : Ty)
  | Map (key : Ty) (elem : Ty)
  | Chan (dir : ChanDir) (elem : Ty)
  | Other (tag : Nat)
  | Named (id : Nat) (underlying : Ty)
  | TypeParam (id : Nat) (terms : List (Option Ty))

mutual
/-- Deep structural comparison of two types. -/
def Ty.beq : Ty → Ty → Bool
  | .Basic k, .Basic l => decide (k = l)
  | .Array n a, .Array m b => decide (n = m) && Ty.beq a b
  | .Slice a, .Slice b => Ty.beq a b
  | .Pointer a, .Pointer b => Ty.beq a b
  | .Map k a, .Map l b => Ty.beq k l && Ty.beq a b
  | .Chan d a, .Chan e b => decide (d = e) && Ty.beq a b
  | .Other s, .Other t => decide (s = t)
  | .Named i a, .Named j b => decide (i = j) && Ty.beq a b
  | .TypeParam i ts, .TypeParam j us => decide (i = j) && Ty.beqTerms ts us
  | _, _ => false
/-- Deep structural comparison of two term lists. -/
def Ty.beqTerms : List (Option Ty) → List (Option Ty) → Bool
  | [], [] => true
  | none :: ts, none :: us => Ty.beqTerms ts us
  | some a :: ts, some b :: us => Ty.beq a b && Ty.beqTerms ts us
  | _, _ => false
end

/-- Modelled from the spec: the structural-identity predicate `Identical`
(declared outside `under.go`): deep equality respecting element types and
directionality. -/
def Identical (x y : Ty) : Bool := Ty.beq x y

/-- Modelled from the spec: the method `Underlying` (declared outside
`under.go`) returns the type's own structural form; a named type yields its
stored underlying type. -/
def Ty.Underlying : Ty → Ty
  | .Named _ u => u
  | t => t

/-- Modelled from the spec: the accessor `(*Named).under` (declared outside
`under.go`) yields the already resolved underlying type stored in the named
type. -/
def Ty.namedUnder (_id : Nat) (underlying : Ty) : Ty := underlying

/-- Source: `under`. A `*Named` receiver goes through its own accessor, every
other type through `Underlying`. -/
def under (t : Ty) : Ty :=
  match t with
  | .Named id u => Ty.namedUnder id u
  | t => t.Underlying

/-- Source: `match` (the name is a keyword here). -/
def match_ (x y : Ty) : Option Ty :=
  if Identical x y then some x
  else
    match x, y with
    | .Chan xdir xelem, .Chan ydir yelem =>
      if Identical xelem yelem then
        if xdir = ChanDir.SendRecv then some y
        else if ydir = ChanDir.SendRecv then some x
        else none
      else none
    | _, _ => none

/-- Modelled from the spec: `(*TypeParam).underIs` (declared outside
`under.go`), a visitor with early exit over the underlying types of the terms.
The visitor's captured variables are the state `σ`; the enumeration stops at the
first term for which the visitor answers `false` and then answers `false`
itself, and answers `true` when every term was accepted. -/
def underIs {σ : Type} (terms : List (Option Ty)) (f : σ → Option Ty → Bool × σ) (s : σ) :
    Bool × σ :=
  match terms with
  | [] => (true, s)
  | u :: rest =>
    match f s u with
    | (true, s') => underIs rest f s'
    | (false, s') => (false, s')

/-- Source: the closure handed to `underIs` in `coreType`; the captured
variable `su` is the state. -/
def coreTypeVisit (su : Option Ty) (u : Option Ty) : Bool × Option Ty :=
  match u with
  | none => (false, su)
  | some u =>
    match su with
    | some s =>
      match match_ s u with
      | none => (false, su)
      | some u' => (true, some u')
    | none => (true, some u)

/-- Source: `coreType`. -/
def coreType (t : Ty) : Option Ty :=
  match t with
  | .TypeParam _ terms =>
    match underIs terms coreTypeVisit none with
    | (true, su) => su
    | (false, _) => none
  | t => some (under t)

/-- Modelled from the spec: `isString` (declared outside `under.go`) holds of
the string-like types, the typed and the untyped string. -/
def isString (u : Ty) : Bool :=
  match u with
  | .Basic .String => true
  | .Basic .UntypedString => true
  | _ => false

/-- Modelled from the spec: `universeByte` (declared outside `under.go`), the
type `byte`, an alias of `uint8`. -/
def universeByte : Ty := .Basic .Uint8

/-- Modelled from the spec: `NewSlice` (declared outside `under.go`). -/
def NewSlice (elem : Ty) : Ty := .Slice elem

/-- Modelled from the spec: the table `Typ` of the basic types, indexed by kind
(declared outside `under.go`). -/
def Typ (k : BasicKind) : Ty := .Basic k

/-- Source: the closure handed to `underIs` in `coreString`; the captured
variables `su` and `hasString` are the state. -/
def coreStringVisit (st : Option Ty × Bool) (u : Option Ty) : Bool × (Option Ty × Bool) :=
  match u with
  | none => (false, st)
  | some u =>
    let (u, hasString) :=
      if isString u then (NewSlice universeByte, true) else (u, st.2)
    match st.1 with
    | some s =>
      match match_ s u with
      | none => (false, (st.1, hasString))
      | some u' => (true, (some u', hasString))
    | none => (true, (some u, hasString))

/-- Source: `coreString`. -/
def coreString (t : Ty) : Option Ty :=
  match t with
  | .TypeParam _ terms =>
    match underIs terms coreStringVisit (none, false) with
    | (true, (su, hasString)) => if hasString then some (Typ .String) else su
    | (false, _) => none
  | t => some (under t)

/-- Spec (§4.3): the left fold `match(...match(match(u1, u2), u3)..., un)` from the
accumulator `acc = u1` over the remaining terms, failing as soon as an
intermediate `match` fails. -/
def foldMatch (acc : Ty) : List Ty → Option Ty
  | [] => some acc
  | u :: us =>
    match match_ acc u with
    | none => none
    | some a => foldMatch a us

/-- The replacement `coreString` applies to a term's underlying type before
folding: a string-like type becomes a slice of bytes. -/
def substString (u : Ty) : Ty :=
  if isString u then NewSlice universeByte else u

/-- Whether the visitor is handed a string-like type. -/
def isStringTerm (u : Option Ty) : Bool :=
  match u with
  | some v => isString v
  | none => false

/-- Instrumented visitor: runs the visitor `f` on its own state and records the
term it was applied to. -/
def logVisit {σ : Type} (f : σ → Option Ty → Bool × σ) (st : σ × List (Option Ty))
    (u : Option Ty) : Bool × (σ × List (Option Ty)) :=
  match f st.1 u with
  | (ok, s') => (ok, (s', st.2 ++ [u]))

end Types2

/-!
# Multipath TCP fallback (`net/mptcpsock_linux.go`)

The package variables `mptcpOnce` and `mptcpAvailable` are explicit state. The
functions the file calls but does not declare are parameters; the state records
the calls made to them, in order, and their results may depend on the calls made
before.
-/

namespace Net

/-- Source: the constant `_IPPROTO_MPTCP`. -/
def _IPPROTO_MPTCP : Nat := 0x106

/-- The two error numbers of package `syscall` that the probe tests for. -/
inductive Errno
  | EPROTONOSUPPORT
  | EINVAL
  deriving DecidableEq, Repr

/-- A call to a function declared outside `mptcpsock_linux.go`. -/
inductive Call
  | sysSocket (family sotype proto : Nat)
  | closeFunc (fd : Int)
  | doDialTCPProto (proto : Nat)
  | dialTCP
  | listenTCPProto (proto : Nat)
  | listenTCP
  deriving DecidableEq, Repr

/-- The constants and functions declared outside `mptcpsock_linux.go`, taken as
parameters. Each function sees the calls made so far. `Err` is the type of
non-nil errors; a nil error is `none`. -/
structure Sys (Ctx Addr Conn Lis Err : Type) where
  AF_INET : Nat
  SOCK_STREAM : Nat
  sysSocket : List Call → Nat → Nat → Nat → Int × Option Err
  isErrno : Err → Errno → Bool
  doDialTCPProto : List Call → Ctx → Addr → Addr → Nat → Conn × Option Err
  dialTCP : List Call → Ctx → Addr → Addr → Conn × Option Err
  listenTCPProto : List Call → Ctx → Addr → Nat → Lis × Option Err
  listenTCP : List Call → Ctx → Addr → Lis × Option Err

/-- The package variables `mptcpOnce` (whether it has run) and `mptcpAvailable`,
and the calls made so far. -/
structure State where
  mptcpOnceDone : Bool
  mptcpAvailable : Bool
  calls : List Call
  deriving DecidableEq, Repr

/-- The function `errors.Is` is declared outside `mptcpsock_linux.go`: on a
non-nil error its answer is the parameter `isErrno`, and a nil error matches no
error number. -/
def errorsIs {Ctx Addr Conn Lis Err : Type} (sys : Sys Ctx Addr Conn Lis Err)
    (err : Option Err) (target : Errno) : Bool :=
  match err with
  | none => false
  | some e => sys.isErrno e target

/-- Source: `initMPTCPavailable`. The `switch` takes the first case that holds;
the case `err == nil` closes the socket and falls through to the default. -/
def initMPTCPavailable {Ctx Addr Conn Lis Err : Type} (sys : Sys Ctx Addr Conn Lis Err)
    (st : State) : State :=
  let r := sys.sysSocket st.calls sys.AF_INET sys.SOCK_STREAM _IPPROTO_MPTCP
  let st1 : State :=
    { st with calls := st.calls ++ [Call.sysSocket sys.AF_INET sys.SOCK_STREAM _IPPROTO_MPTCP] }
  if errorsIs sys r.2 Errno.EPROTONOSUPPORT then st1
  else if errorsIs sys r.2 Errno.EINVAL then st1
  else if r.2.isNone then
    { st1 with calls := st1.calls ++ [Call.closeFunc r.1], mptcpAvailable := true }
  else { st1 with mptcpAvailable := true }

/-- The method `(*sync.Once).Do` is declared outside `mptcpsock_linux.go`: it
runs `f` on the first call only. -/
def onceDo (f : State → State) (st : State) : State :=
  if st.mptcpOnceDone then st else { f st with mptcpOnceDone := true }

/-- Source: `supportsMultipathTCP`. -/
def supportsMultipathTCP {Ctx Addr Conn Lis Err : Type} (sys : Sys Ctx Addr Conn Lis Err)
    (st : State) : Bool × State :=
  let st1 := onceDo (initMPTCPavailable sys) st
  (st1.mptcpAvailable, st1)

/-- Source: `dialMPTCP`. The first component of `attempt` is the connection
returned from inside the `if`, if any; otherwise control reaches the fallback. -/
def dialMPTCP {Ctx Addr Conn Lis Err : Type} (sys : Sys Ctx Addr Conn Lis Err)
    (st : State) (ctx : Ctx) (laddr raddr : Addr) : (Conn × Option Err) × State :=
  let (ok, st1) := supportsMultipathTCP sys st
  let attempt : Option Conn × State :=
    if ok then
      let r := sys.doDialTCPProto st1.calls ctx laddr raddr _IPPROTO_MPTCP
      let st2 : State := { st1 with calls := st1.calls ++ [Call.doDialTCPProto _IPPROTO_MPTCP] }
      if r.2.isNone then (some r.1, st2) else (none, st2)
    else (none, st1)
  match attempt with
  | (some conn, st2) => ((conn, none), st2)
  | (none, st2) =>
    (sys.dialTCP st2.calls ctx laddr raddr, { st2 with calls := st2.calls ++ [Call.dialTCP] })

/-- Source: `listenMPTCP`. -/
def listenMPTCP {Ctx Addr Conn Lis Err : Type} (sys : Sys Ctx Addr Conn Lis Err)
    (st : State) (ctx : Ctx) (laddr : Addr) : (Lis × Option Err) × State :=
  let (ok, st1) := supportsMultipathTCP sys st
  let attempt : Option Lis × State :=
    if ok then
      let r := sys.listenTCPProto st1.calls ctx laddr _IPPROTO_MPTCP
      let st2 : State := { st1 with calls := st1.calls ++ [Call.listenTCPProto _IPPROTO_MPTCP] }
      if r.2.isNone then (some r.1, st2) else (none, st2)
    else (none, st1)
  match attempt with
  | (some lis, st2) => ((lis, none), st2)
  | (none, st2) =>
    (sys.listenTCP st2.calls ctx laddr, { st2 with calls := st2.calls ++ [Call.listenTCP] })

/-- A concrete environment for evaluating the functions: the probe socket is
descriptor 3 and its creation returns the error `probe`; the MPTCP dial and
listen return the error `mptcpErr`; the plain dial and listen succeed; error 93
is `EPROTONOSUPPORT` and error 22 is `EINVAL`. -/
def sysExample (probe mptcpErr : Option Nat) : Sys Nat Nat Nat Nat Nat where
  AF_INET := 2
  SOCK_STREAM := 1
  sysSocket := fun _ _ _ _ => (3, probe)
  isErrno := fun e t =>
    match t with
    | Errno.EPROTONOSUPPORT => e == 93
    | Errno.EINVAL => e == 22
  doDialTCPProto := fun _ _ _ _ _ => (10, mptcpErr)
  dialTCP := fun _ _ _ _ => (20, none)
  listenTCPProto := fun _ _ _ _ => (30, mptcpErr)
  listenTCP := fun _ _ _ => (40, none)

end Net

namespace Types2

/-! ## Helper lemmas -/

mutual
theorem Ty.beq_iff : ∀ (a b : Ty), Ty.beq a b = true ↔ a = b
  | .Basic _, b => by cases b <;> simp [Ty.beq]
  | .Array _ a, b => by cases b <;> simp [Ty.beq, Ty.beq_iff a]
  | .Slice a, b => by cases b <;> simp [Ty.beq, Ty.beq_iff a]
  | .Pointer a, b => by cases b <;> simp [Ty.beq, Ty.beq_iff a]
  | .Map k a, b => by cases b <;> simp [Ty.beq, Ty.beq_iff k, Ty.beq_iff a]
  | .Chan _ a, b => by cases b <;> simp [Ty.beq, Ty.beq_iff a]
  | .Other _, b => by cases b <;> simp [Ty.beq]
  | .Named _ a, b => by cases b <;> simp [Ty.beq, Ty.beq_iff a]
  | .TypeParam _ ts, b => by cases b <;> simp [Ty.beq, Ty.beqTerms_iff ts]
theorem Ty.beqTerms_iff : ∀ (ts us : List (Option Ty)), Ty.beqTerms ts us = true ↔ ts = us
  | [], us => by cases us <;> simp [Ty.beqTerms]
  | none :: ts, us => by
    rcases us with _ | ⟨_ | b, us⟩ <;> simp [Ty.beqTerms, Ty.beqTerms_iff ts]
  | some a :: ts, us => by
    rcases us with _ | ⟨_ | b, us⟩ <;> simp [Ty.beqTerms, Ty.beq_iff a, Ty.beqTerms_iff ts]
end

instance : DecidableEq Ty := fun a b => decidable_of_iff _ (Ty.beq_iff a b)

theorem Identical_iff (x y : Ty) : Identical x y = true ↔ x = y := by
  simp [Identical, Ty.beq_iff]

theorem Identical_self (x : Ty) : Identical x x = true := (Identical_iff x x).2 rfl

theorem match_of_eq (x : Ty) : match_ x x = some x := by
  simp [match_, Identical_self]

/-- What `match` computes on two different types. -/
theorem match_of_ne (x y : Ty) (h : x ≠ y) :
    match_ x y =
      match x, y with
      | .Chan xdir xelem, .Chan ydir yelem =>
        if xelem = yelem then
          if xdir = ChanDir.SendRecv then some y
          else if ydir = ChanDir.SendRecv then some x
          else none
        else none
      | _, _ => none := by
  have hxy : Identical x y = false := by
    cases hI : Identical x y
    · rfl
    · exact absurd ((Identical_iff x y).1 hI) h
  unfold match_
  rw [hxy]
  cases x <;> cases y <;> simp
  rename_i xd xe yd ye
  by_cases he : xe = ye
  · simp [he, Identical_self]
  · have : Identical xe ye = false := by
      cases hI : Identical xe ye
      · rfl
      · exact absurd ((Identical_iff xe ye).1 hI) he
    simp [he, this]

/-- The plain fold from a non-empty accumulator over non-nil terms is `foldMatch`. -/
theorem underIs_coreTypeVisit_some (us : List Ty) (acc : Ty) :
    (match underIs (us.map some) coreTypeVisit (some acc) with
      | (true, su) => su
      | (false, _) => none) = foldMatch acc us := by
  induction us generalizing acc with
  | nil => simp [underIs, foldMatch]
  | cons u us ih =>
    simp only [List.map_cons, underIs, coreTypeVisit, foldMatch]
    cases hm : match_ acc u with
    | none => simp
    | some a => simpa using ih a

/-- When `foldMatch` fails, it fails at an intermediate `match`. -/
theorem foldMatch_eq_none_iff (us : List Ty) (acc : Ty) :
    foldMatch acc us = none ↔
      ∃ p u s a, us = p ++ u :: s ∧ foldMatch acc p = some a ∧ match_ a u = none := by
  induction us generalizing acc with
  | nil => simp [foldMatch]
  | cons u us ih =>
    simp only [foldMatch]
    cases hm : match_ acc u with
    | none =>
      simp only [true_iff]
      exact ⟨[], u, us, acc, rfl, rfl, hm⟩
    | some a =>
      simp only [ih a]
      constructor
      · rintro ⟨p, v, s, b, rfl, hp, hv⟩
        exact ⟨u :: p, v, s, b, rfl, by simp [foldMatch, hm, hp], hv⟩
      · rintro ⟨p, v, s, b, hus, hp, hv⟩
        cases p with
        | nil =>
          simp only [List.nil_append, List.cons.injEq] at hus
          obtain ⟨rfl, rfl⟩ := hus
          simp only [foldMatch, Option.some.injEq] at hp
          subst hp
          rw [hm] at hv
          exact absurd hv (by simp)
        | cons w p =>
          simp only [List.cons_append, List.cons.injEq] at hus
          obtain ⟨rfl, rfl⟩ := hus
          simp only [foldMatch, hm] at hp
          exact ⟨p, v, s, b, rfl, hp, hv⟩

/-- When `match r u` returns `r` itself: `r` equals `u`, or restricts the
unrestricted channel `u`. -/
theorem match_eq_left_iff (r u : Ty) :
    match_ r u = some r ↔ r = u ∨ ∃ d e, r = .Chan d e ∧ u = .Chan .SendRecv e := by
  by_cases h : r = u
  · subst h
    simp [match_of_eq]
  · rw [match_of_ne r u h]
    cases r <;> cases u <;> try (first | (simp; done) | (simpa using h))
    rename_i xd xe yd ye
    by_cases he : xe = ye
    · subst he
      have hd : xd ≠ yd := fun hc => h (by rw [hc])
      by_cases hx : xd = ChanDir.SendRecv
      · subst hx
        have hy : ¬ yd = ChanDir.SendRecv := fun hc => hd hc.symm
        have hy' : ¬ ChanDir.SendRecv = yd := hd
        simp [hy, hy']
      · by_cases hy : yd = ChanDir.SendRecv
        · simp [hx, hy]
        · simp [hx, hy, hd]
    · simp [he]

/-- The result of a successful `match` covers both arguments. -/
theorem match_covers (a u b : Ty) (h : match_ a u = some b) :
    match_ b a = some b ∧ match_ b u = some b := by
  by_cases hau : a = u
  · subst hau
    rw [match_of_eq] at h
    injection h with h
    subst h
    exact ⟨match_of_eq _, match_of_eq _⟩
  · rw [match_of_ne a u hau] at h
    cases a <;> cases u <;> simp at h
    rename_i xd xe yd ye
    obtain ⟨he, h⟩ := h
    subst he
    by_cases hx : xd = ChanDir.SendRecv
    · subst hx
      simp at h
      subst h
      exact ⟨(match_eq_left_iff _ _).2 (Or.inr ⟨yd, xe, rfl, rfl⟩), match_of_eq _⟩
    · simp [hx] at h
      obtain ⟨hy, h⟩ := h
      subst h
      subst hy
      exact ⟨match_of_eq _, (match_eq_left_iff _ _).2 (Or.inr ⟨xd, xe, rfl, rfl⟩)⟩

/-- Covering is transitive. -/
theorem match_eq_left_trans (r b a : Ty) (h1 : match_ r b = some r) (h2 : match_ b a = some b) :
    match_ r a = some r := by
  rw [match_eq_left_iff] at h1 h2 ⊢
  rcases h1 with rfl | ⟨d, e, rfl, rfl⟩
  · exact h2
  · rcases h2 with rfl | ⟨d', e', h3, rfl⟩
    · exact Or.inr ⟨d, e, rfl, rfl⟩
    · injection h3 with _ h4
      subst h4
      exact Or.inr ⟨d, e, rfl, rfl⟩

/-- Invariant of the plain fold: on success every term is non-nil and covered by
the final accumulator, and so is the initial accumulator. -/
theorem underIs_coreTypeVisit_covers (terms : List (Option Ty)) (su su' : Option Ty)
    (h : underIs terms coreTypeVisit su = (true, su')) :
    (∀ w ∈ terms, ∃ x r, w = some x ∧ su' = some r ∧ match_ r x = some r) ∧
    (∀ s, su = some s → ∃ r, su' = some r ∧ match_ r s = some r) := by
  induction terms generalizing su with
  | nil =>
    simp only [underIs, Prod.mk.injEq, true_and] at h
    subst h
    exact ⟨by simp, fun s hs => ⟨s, hs, match_of_eq s⟩⟩
  | cons u rest ih =>
    cases u with
    | none => simp [underIs, coreTypeVisit] at h
    | some v =>
      cases su with
      | none =>
        simp only [underIs, coreTypeVisit] at h
        obtain ⟨ih1, ih2⟩ := ih (some v) h
        obtain ⟨r, hr, hrv⟩ := ih2 v rfl
        refine ⟨?_, by simp⟩
        intro w hw
        rcases List.mem_cons.1 hw with rfl | hw
        · exact ⟨v, r, rfl, hr, hrv⟩
        · exact ih1 w hw
      | some s =>
        simp only [underIs, coreTypeVisit] at h
        cases hm : match_ s v with
        | none => simp [hm] at h
        | some a =>
          simp only [hm] at h
          obtain ⟨ih1, ih2⟩ := ih (some a) h
          obtain ⟨r, hr, hra⟩ := ih2 a rfl
          obtain ⟨has, hav⟩ := match_covers s v a hm
          refine ⟨?_, ?_⟩
          · intro w hw
            rcases List.mem_cons.1 hw with rfl | hw
            · exact ⟨v, r, rfl, hr, match_eq_left_trans r a v hra hav⟩
            · exact ih1 w hw
          · intro s' hs'
            injection hs' with hs'
            subst hs'
            exact ⟨r, hr, match_eq_left_trans r a s hra has⟩

/-- One step of the string-aware visitor is a step of the plain visitor on the
substituted term, together with the update of `hasString`. -/
theorem coreStringVisit_eq (su : Option Ty) (hs : Bool) (u : Option Ty) :
    coreStringVisit (su, hs) u =
      ((coreTypeVisit su (u.map substString)).1,
        ((coreTypeVisit su (u.map substString)).2, (hs || isStringTerm u))) := by
  cases u with
  | none => simp [coreStringVisit, coreTypeVisit, isStringTerm]
  | some v =>
    cases hv : isString v <;> cases su with
    | none => simp [coreStringVisit, coreTypeVisit, isStringTerm, substString, hv]
    | some s =>
      simp only [coreStringVisit, coreTypeVisit, isStringTerm, substString, hv, Option.map_some']
      split <;> simp_all

/-- The string-aware fold is the plain fold over the substituted terms; on
success `hasString` records whether some term was string-like. -/
theorem underIs_coreStringVisit (terms : List (Option Ty)) (su : Option Ty) (hs : Bool) :
    (underIs terms coreStringVisit (su, hs)).1
        = (underIs (terms.map (Option.map substString)) coreTypeVisit su).1 ∧
    (underIs terms coreStringVisit (su, hs)).2.1
        = (underIs (terms.map (Option.map substString)) coreTypeVisit su).2 ∧
    ((underIs terms coreStringVisit (su, hs)).1 = true →
      (underIs terms coreStringVisit (su, hs)).2.2 = (hs || terms.any isStringTerm)) := by
  induction terms generalizing su hs with
  | nil => simp [underIs]
  | cons u rest ih =>
    simp only [underIs, List.map_cons, coreStringVisit_eq]
    cases hstep : coreTypeVisit su (u.map substString) with
    | mk ok su1 =>
      cases ok with
      | false => simp
      | true =>
        simp only [List.any_cons]
        obtain ⟨h1, h2, h3⟩ := ih su1 (hs || isStringTerm u)
        refine ⟨h1, h2, ?_⟩
        intro hok
        rw [h3 hok, Bool.or_assoc]

/-- A successful plain fold over at least one term ends with an accumulator. -/
theorem underIs_coreTypeVisit_isSome (terms : List (Option Ty)) (su' : Option Ty)
    (w : Option Ty) (hw : w ∈ terms) (h : underIs terms coreTypeVisit none = (true, su')) :
    ∃ r, su' = some r := by
  obtain ⟨_, r, _, hr, _⟩ := (underIs_coreTypeVisit_covers terms none su' h).1 w hw
  exact ⟨r, hr⟩

/-- The string-aware variant is the plain variant over the substituted terms,
with the string type as result when a string-like term was seen. -/
theorem coreString_eq (id : Nat) (terms : List (Option Ty)) :
    coreString (.TypeParam id terms) =
      match coreType (.TypeParam id (terms.map (Option.map substString))) with
      | none => none
      | some r => if terms.any isStringTerm then some (Typ .String) else some r := by
  obtain ⟨h1, h2, h3⟩ := underIs_coreStringVisit terms none false
  simp only [coreString, coreType]
  cases hB : underIs (terms.map (Option.map substString)) coreTypeVisit none with
  | mk ok su' =>
    cases hA : underIs terms coreStringVisit (none, false) with
    | mk ok' st =>
      obtain ⟨su2, hs2⟩ := st
      rw [hA, hB] at h1 h2
      rw [hA] at h3
      simp only at h1 h2 h3
      subst h1 h2
      cases ok' with
      | false => rfl
      | true =>
        have h3' := h3 rfl
        simp only [Bool.false_or] at h3'
        subst h3'
        cases su2 with
        | some r => rfl
        | none =>
          cases hany : terms.any isStringTerm with
          | false => simp
          | true =>
            obtain ⟨w, hw, _⟩ := List.any_eq_true.1 hany
            obtain ⟨r, hr⟩ := underIs_coreTypeVisit_isSome _ none (w.map substString)
              (List.mem_map_of_mem _ hw) hB
            exact absurd hr (by simp)

/-- The plain variant fails whenever two terms cannot be covered by one type. -/
theorem coreType_sendOnly_recvOnly (id : Nat) (terms : List (Option Ty)) (e : Ty)
    (hs : some (Ty.Chan .SendOnly e) ∈ terms) (hr : some (Ty.Chan .RecvOnly e) ∈ terms) :
    coreType (.TypeParam id terms) = none := by
  simp only [coreType]
  cases hB : underIs terms coreTypeVisit none with
  | mk ok su' =>
    cases ok with
    | false => rfl
    | true =>
      exfalso
      obtain ⟨hcov, _⟩ := underIs_coreTypeVisit_covers terms none su' hB
      obtain ⟨x, r, hx, hr1, hm1⟩ := hcov _ hs
      obtain ⟨y, r', hy, hr2, hm2⟩ := hcov _ hr
      injection hx with hx
      injection hy with hy
      subst hx hy
      rw [hr1] at hr2
      injection hr2 with hr2
      subst hr2
      rw [match_eq_left_iff] at hm1 hm2
      rcases hm1 with rfl | ⟨d, e1, _, h1⟩
      · rcases hm2 with h2 | ⟨d, e2, _, h2⟩
        · simp at h2
        · simp at h2
      · simp at h1

/-- A successful `match` returns one of its two arguments. -/
theorem match_some_cases (a u b : Ty) (h : match_ a u = some b) : b = a ∨ b = u := by
  by_cases hau : a = u
  · subst hau
    rw [match_of_eq] at h
    injection h with h
    exact Or.inl h.symm
  · rw [match_of_ne a u hau] at h
    cases a <;> cases u <;> simp at h
    rename_i xd xe yd ye
    obtain ⟨_, h⟩ := h
    by_cases hx : xd = ChanDir.SendRecv
    · simp [hx] at h
      exact Or.inr h.symm
    · simp [hx] at h
      exact Or.inl h.2.symm

/-- The accumulator of a successful plain fold is the initial accumulator or one
of the terms. -/
theorem underIs_coreTypeVisit_mem (terms : List (Option Ty)) (su su' : Option Ty)
    (h : underIs terms coreTypeVisit su = (true, su')) (r : Ty) (hr : su' = some r) :
    su = some r ∨ some r ∈ terms := by
  induction terms generalizing su with
  | nil =>
    simp only [underIs, Prod.mk.injEq, true_and] at h
    exact Or.inl (h.trans hr)
  | cons u rest ih =>
    cases u with
    | none => simp [underIs, coreTypeVisit] at h
    | some v =>
      cases su with
      | none =>
        simp only [underIs, coreTypeVisit] at h
        rcases ih (some v) h with h1 | h1
        · exact Or.inr (by rw [← h1]; exact List.mem_cons_self _ _)
        · exact Or.inr (List.mem_cons_of_mem _ h1)
      | some s =>
        simp only [underIs, coreTypeVisit] at h
        cases hm : match_ s v with
        | none => simp [hm] at h
        | some a =>
          simp only [hm] at h
          rcases ih (some a) h with h1 | h1
          · injection h1 with h1
            subst h1
            rcases match_some_cases s v a hm with h2 | h2
            · exact Or.inl (by rw [h2])
            · exact Or.inr (by rw [h2]; exact List.mem_cons_self _ _)
          · exact Or.inr (List.mem_cons_of_mem _ h1)

/-- What `coreType` returns on a type parameter, in terms of its fold. -/
theorem coreType_eq_some (id : Nat) (terms : List (Option Ty)) (r : Ty)
    (h : coreType (.TypeParam id terms) = some r) :
    underIs terms coreTypeVisit none = (true, some r) := by
  simp only [coreType] at h
  cases hB : underIs terms coreTypeVisit none with
  | mk ok su' =>
    rw [hB] at h
    cases ok with
    | false => simp at h
    | true =>
      simp only at h
      rw [h]

/-- Without a string-like term the substitution changes nothing. -/
theorem map_substString_of_not_any (terms : List (Option Ty))
    (h : terms.any isStringTerm = false) :
    terms.map (Option.map substString) = terms := by
  induction terms with
  | nil => rfl
  | cons u rest ih =>
    simp only [List.any_cons, Bool.or_eq_false_iff] at h
    rw [List.map_cons, ih h.2]
    cases u with
    | none => rfl
    | some v =>
      have hv : isString v = false := by simpa [isStringTerm] using h.1
      simp [substString, hv]

/-- A nil term makes the plain variant fail. -/
theorem coreType_of_nil_mem (id : Nat) (terms : List (Option Ty)) (h : none ∈ terms) :
    coreType (.TypeParam id terms) = none := by
  cases hc : coreType (.TypeParam id terms) with
  | none => rfl
  | some r =>
    obtain ⟨x, _, hx, _, _⟩ :=
      (underIs_coreTypeVisit_covers terms none (some r) (coreType_eq_some id terms r hc)).1 none h
    exact absurd hx (by simp)

/-- Two types covered by `r` match, and their match is again covered by `r`; it
is `r` itself as soon as one of them is `r`. -/
theorem match_of_covered (r s x : Ty) (hs : match_ r s = some r) (hx : match_ r x = some r) :
    ∃ b, match_ s x = some b ∧ match_ r b = some r ∧ ((s = r ∨ x = r) → b = r) := by
  have hs' := (match_eq_left_iff r s).1 hs
  have hx' := (match_eq_left_iff r x).1 hx
  rcases hs' with rfl | ⟨d, e, rfl, rfl⟩
  · rcases hx' with rfl | ⟨d, e, rfl, rfl⟩
    · exact ⟨r, match_of_eq r, hs, fun _ => rfl⟩
    · exact ⟨.Chan d e, hx, match_of_eq _, fun _ => rfl⟩
  · rcases hx' with rfl | ⟨d', e', h1, rfl⟩
    · refine ⟨.Chan d e, ?_, match_of_eq _, fun _ => rfl⟩
      by_cases hd : d = ChanDir.SendRecv
      · subst hd
        exact match_of_eq _
      · rw [match_of_ne _ _ (by simp; exact fun hc => hd hc.symm)]
        simp
    · injection h1 with _ h2
      subst h2
      refine ⟨.Chan .SendRecv e, match_of_eq _, hs, ?_⟩
      rintro (h | h) <;> exact h

/-- Converse of the invariant: the plain fold succeeds over terms that are all
covered by `r`, and ends with `r` as soon as `r` was seen. -/
theorem underIs_coreTypeVisit_of_covers (r : Ty) (terms : List (Option Ty)) (su : Option Ty)
    (hterms : ∀ w ∈ terms, ∃ x, w = some x ∧ match_ r x = some r)
    (hsu : ∀ s, su = some s → match_ r s = some r) :
    ∃ su', underIs terms coreTypeVisit su = (true, su') ∧
      (∀ s', su' = some s' → match_ r s' = some r) ∧
      ((su = some r ∨ some r ∈ terms) → su' = some r) := by
  induction terms generalizing su with
  | nil =>
    refine ⟨su, rfl, hsu, ?_⟩
    rintro (h | h)
    · exact h
    · simp at h
  | cons u rest ih =>
    obtain ⟨x, hu, hx⟩ := hterms u (List.mem_cons_self _ _)
    subst hu
    have hrest : ∀ w ∈ rest, ∃ x, w = some x ∧ match_ r x = some r :=
      fun w hw => hterms w (List.mem_cons_of_mem _ hw)
    cases su with
    | none =>
      obtain ⟨su', h1, h2, h3⟩ := ih (some x) hrest (by
        intro s hs
        injection hs with hs
        subst hs
        exact hx)
      refine ⟨su', by simpa [underIs, coreTypeVisit] using h1, h2, ?_⟩
      rintro (h | h)
      · simp at h
      · rcases List.mem_cons.1 h with h | h
        · exact h3 (Or.inl h.symm)
        · exact h3 (Or.inr h)
    | some s =>
      obtain ⟨b, hb, hrb, hbr⟩ := match_of_covered r s x (hsu s rfl) hx
      obtain ⟨su', h1, h2, h3⟩ := ih (some b) hrest (by
        intro s' hs'
        injection hs' with hs'
        subst hs'
        exact hrb)
      refine ⟨su', by simpa [underIs, coreTypeVisit, hb] using h1, h2, ?_⟩
      rintro (h | h)
      · injection h with h
        exact h3 (Or.inl (by rw [hbr (Or.inl h)]))
      · rcases List.mem_cons.1 h with h | h
        · injection h with h
          exact h3 (Or.inl (by rw [hbr (Or.inr h.symm)]))
        · exact h3 (Or.inr h)

/-- The plain variant returns `r` exactly when `r` is a term and covers every
term. -/
theorem coreType_eq_some_iff (id : Nat) (terms : List (Option Ty)) (r : Ty) :
    coreType (.TypeParam id terms) = some r ↔
      some r ∈ terms ∧ ∀ w ∈ terms, ∃ x, w = some x ∧ match_ r x = some r := by
  constructor
  · intro h
    have hB := coreType_eq_some id terms r h
    refine ⟨?_, ?_⟩
    · rcases underIs_coreTypeVisit_mem terms none (some r) hB r rfl with h1 | h1
      · exact absurd h1 (by simp)
      · exact h1
    · intro w hw
      obtain ⟨x, r', hx, hr', hm⟩ := (underIs_coreTypeVisit_covers terms none (some r) hB).1 w hw
      injection hr' with hr'
      subst hr'
      exact ⟨x, hx, hm⟩
  · rintro ⟨hmem, hcov⟩
    obtain ⟨su', h1, _, h3⟩ := underIs_coreTypeVisit_of_covers r terms none hcov (by simp)
    simp only [coreType, h1]
    exact h3 (Or.inr hmem)

/-- The plain variant does not depend on the enumeration order. -/
theorem coreType_perm (id : Nat) (l1 l2 : List (Option Ty)) (h : l1.Perm l2) :
    coreType (.TypeParam id l1) = coreType (.TypeParam id l2) := by
  apply Option.ext
  intro r
  simp only [Option.mem_def, coreType_eq_some_iff]
  constructor
  · rintro ⟨h1, h2⟩
    exact ⟨h.mem_iff.1 h1, fun w hw => h2 w (h.mem_iff.2 hw)⟩
  · rintro ⟨h1, h2⟩
    exact ⟨h.mem_iff.2 h1, fun w hw => h2 w (h.mem_iff.1 hw)⟩

/-- The instrumented enumeration answers like the plain one and leaves the
visitor's state the same. -/
theorem underIs_logVisit {σ : Type} (f : σ → Option Ty → Bool × σ) (l : List (Option Ty))
    (s0 : σ) (log : List (Option Ty)) :
    (underIs l (logVisit f) (s0, log)).1 = (underIs l f s0).1 ∧
    (underIs l (logVisit f) (s0, log)).2.1 = (underIs l f s0).2 := by
  induction l generalizing s0 log with
  | nil => simp [underIs]
  | cons u rest ih =>
    simp only [underIs, logVisit]
    cases hf : f s0 u with
    | mk ok s1 =>
      cases ok with
      | false => simp
      | true => exact ih s1 (log ++ [u])

/-- A failing enumeration fails at one term `u` of the list, after the terms `q`
before it; whatever follows `u`, the visitor is applied to `q` and `u` only. -/
theorem underIs_fail_split {σ : Type} (f : σ → Option Ty → Bool × σ) (p : List (Option Ty))
    (s0 : σ) (h : (underIs p f s0).1 = false) :
    ∃ q u t, p = q ++ u :: t ∧ ∀ rest log,
      underIs (q ++ u :: rest) (logVisit f) (s0, log)
        = (false, ((underIs p f s0).2, log ++ (q ++ [u]))) := by
  induction p generalizing s0 with
  | nil => simp [underIs] at h
  | cons u p ih =>
    cases hf : f s0 u with
    | mk ok s1 =>
      cases ok with
      | false =>
        refine ⟨[], u, p, rfl, ?_⟩
        intro rest log
        simp [underIs, logVisit, hf]
      | true =>
        simp only [underIs, hf] at h
        obtain ⟨q, v, t, hp, hrun⟩ := ih s1 h
        refine ⟨u :: q, v, t, by rw [hp]; rfl, ?_⟩
        intro rest log
        have hstep : underIs (u :: q ++ v :: rest) (logVisit f) (s0, log)
            = underIs (q ++ v :: rest) (logVisit f) (s1, log ++ [u]) := by
          simp only [List.cons_append, underIs, logVisit, hf]
          rfl
        have hfin : (underIs (u :: p) f s0).2 = (underIs p f s1).2 := by
          simp only [underIs, hf]
        rw [hstep, hrun rest (log ++ [u]), hfin]
        simp

/-- Some term is string-like: the two ways of saying it. -/
theorem any_isStringTerm_iff (terms : List (Option Ty)) :
    terms.any isStringTerm = true ↔ ∃ v, some v ∈ terms ∧ isString v = true := by
  rw [List.any_eq_true]
  constructor
  · rintro ⟨w, hw, hs⟩
    cases w with
    | none => simp [isStringTerm] at hs
    | some v => exact ⟨v, hw, by simpa [isStringTerm] using hs⟩
  · rintro ⟨v, hv, hs⟩
    exact ⟨some v, hv, by simpa [isStringTerm] using hs⟩

/-! ## Claims -/

/-- C1: for a type parameter whose constraint set enumerates the non-nil
underlying types `u1, ..., un` (`n ≥ 1`), `coreType` returns the left fold of
`match` over them, and it returns nil exactly when some intermediate `match` of
that fold is nil. -/
theorem coreType_eq_foldMatch (id : Nat) (u1 : Ty) (us : List Ty) :
    coreType (.TypeParam id ((u1 :: us).map some)) = foldMatch u1 us ∧
    (coreType (.TypeParam id ((u1 :: us).map some)) = none ↔
      ∃ p u s a, us = p ++ u :: s ∧ foldMatch u1 p = some a ∧ match_ a u = none) := by
  have h : coreType (.TypeParam id ((u1 :: us).map some)) = foldMatch u1 us := by
    simp only [coreType, List.map_cons, underIs, coreTypeVisit]
    exact underIs_coreTypeVisit_some us u1
  exact ⟨h, by rw [h]; exact foldMatch_eq_none_iff us u1⟩

/-- C2: for channels `x`, `y` with identical element types and different
directions, if one of them is unrestricted (`SendRecv`) then `match x y` is the
other, restricted channel, in whichever argument position the unrestricted one
stands; in particular `match(bidirectional(T), sendOnly(T)) = sendOnly(T)`. -/
theorem match_chan_unrestricted (dx dy : ChanDir) (e : Ty) (h : dx ≠ dy) :
    (dx = ChanDir.SendRecv → match_ (.Chan dx e) (.Chan dy e) = some (.Chan dy e)) ∧
    (dy = ChanDir.SendRecv → match_ (.Chan dx e) (.Chan dy e) = some (.Chan dx e)) ∧
    match_ (.Chan .SendRecv e) (.Chan .SendOnly e) = some (.Chan .SendOnly e) := by
  have hne : (Ty.Chan dx e) ≠ (Ty.Chan dy e) := by
    intro hc
    injection hc with h1 _
    exact h h1
  refine ⟨?_, ?_, ?_⟩
  · intro hx
    rw [match_of_ne _ _ hne]
    simp [hx]
  · intro hy
    rw [match_of_ne _ _ hne]
    subst hy
    simp [h]
  · rw [match_of_ne _ _ (by simp)]
    simp

theorem match_chan_unrestricted_witness :
    ChanDir.SendRecv ≠ ChanDir.RecvOnly ∧
    match_ (.Chan .SendRecv (.Basic .Int)) (.Chan .RecvOnly (.Basic .Int))
      = some (.Chan .RecvOnly (.Basic .Int)) :=
  ⟨by decide,
    (match_chan_unrestricted .SendRecv .RecvOnly (.Basic .Int) (by decide)).1 rfl⟩

/-- C3: for types `x ≠ y`, `match x y` is nil unless both are channels with
identical element types and at least one of them is unrestricted; in particular
a send-only and a receive-only channel of one element type never unify, in
either argument order. -/
theorem match_ne_eq_none_iff (x y : Ty) (h : x ≠ y) :
    (match_ x y = none ↔
      ¬ ∃ dx dy e, x = .Chan dx e ∧ y = .Chan dy e ∧
        (dx = ChanDir.SendRecv ∨ dy = ChanDir.SendRecv)) ∧
    (∀ e : Ty, match_ (.Chan .SendOnly e) (.Chan .RecvOnly e) = none ∧
      match_ (.Chan .RecvOnly e) (.Chan .SendOnly e) = none) := by
  constructor
  · rw [match_of_ne x y h]
    cases x <;> cases y <;> simp
    rename_i xd xe yd ye
    by_cases he : xe = ye
    · subst he
      by_cases hx : xd = ChanDir.SendRecv
      · simp [hx]
      · by_cases hy : yd = ChanDir.SendRecv
        · simp [hx, hy]
        · simp [hx, hy]
    · have he' : ¬ ye = xe := fun hc => he hc.symm
      simp [he, he']
  · intro e
    constructor
    · rw [match_of_ne _ _ (by simp)]
      simp
    · rw [match_of_ne _ _ (by simp)]
      simp

theorem match_ne_eq_none_iff_witness :
    Ty.Slice (.Basic .Int) ≠ Ty.Basic .Int ∧
    (match_ (.Slice (.Basic .Int)) (.Basic .Int) = none ↔
      ¬ ∃ dx dy e, Ty.Slice (.Basic .Int) = .Chan dx e ∧ Ty.Basic .Int = .Chan dy e ∧
        (dx = ChanDir.SendRecv ∨ dy = ChanDir.SendRecv)) :=
  ⟨by simp, (match_ne_eq_none_iff (.Slice (.Basic .Int)) (.Basic .Int) (by simp)).1⟩

/-- C4: `match` is reflexive: `match x x` returns `x`, never nil. -/
theorem match_refl (x : Ty) : match_ x x = some x ∧ match_ x x ≠ none := by
  rw [match_of_eq]
  simp

/-- C5: `match` is commutative: `match x y = match y x` for all types, also for
channels that differ in direction only and when the result is nil. -/
theorem match_comm (x y : Ty) : match_ x y = match_ y x := by
  by_cases h : x = y
  · subst h
    rfl
  · rw [match_of_ne x y h, match_of_ne y x (Ne.symm h)]
    cases x <;> cases y <;> simp
    rename_i xd xe yd ye
    by_cases he : xe = ye
    · subst he
      have hd : xd ≠ yd := fun hc => h (by rw [hc])
      by_cases hx : xd = ChanDir.SendRecv
      · subst hx
        have hy : ¬ yd = ChanDir.SendRecv := fun hc => hd hc.symm
        simp [hy]
      · by_cases hy : yd = ChanDir.SendRecv
        · simp [hx, hy]
        · simp [hx, hy]
    · have he' : ¬ ye = xe := fun hc => he hc.symm
      simp [he, he']

/-- C6: for a type `t` that is not a type parameter, `coreType t` is
`under t`. -/
theorem coreType_of_not_typeParam (t : Ty) (h : ∀ id terms, t ≠ .TypeParam id terms) :
    coreType t = some (under t) := by
  cases t <;> first | rfl | exact absurd rfl (h _ _)

theorem coreType_of_not_typeParam_witness :
    (∀ id terms, Ty.Named 7 (.Slice (.Basic .Int)) ≠ .TypeParam id terms) ∧
    coreType (.Named 7 (.Slice (.Basic .Int))) = some (.Slice (.Basic .Int)) :=
  ⟨by simp, coreType_of_not_typeParam (.Named 7 (.Slice (.Basic .Int))) (by simp)⟩

/-- C7: if `coreString` succeeds on a type parameter and some term's underlying
type is string-like, the result is the typed string type `Typ[String]`. -/
theorem coreString_hasString (id : Nat) (terms : List (Option Ty)) (r : Ty)
    (hok : coreString (.TypeParam id terms) = some r)
    (hstr : ∃ v, some v ∈ terms ∧ isString v = true) :
    r = Typ .String := by
  obtain ⟨v, hv, hsv⟩ := hstr
  have hany : terms.any isStringTerm = true :=
    List.any_eq_true.2 ⟨some v, hv, by simpa [isStringTerm] using hsv⟩
  rw [coreString_eq, hany] at hok
  cases hc : coreType (.TypeParam id (terms.map (Option.map substString))) with
  | none => simp [hc] at hok
  | some r' =>
    simp only [hc, if_true, Option.some.injEq] at hok
    exact hok.symm

theorem coreString_hasString_witness :
    coreString (.TypeParam 0 [some (.Slice (.Basic .Uint8)), some (.Basic .UntypedString)])
        = some (.Basic .String) ∧
    (∃ v, some v ∈ [some (Ty.Slice (.Basic .Uint8)), some (Ty.Basic .UntypedString)] ∧
      isString v = true) ∧
    Ty.Basic .String = Typ .String :=
  ⟨by decide, ⟨.Basic .UntypedString, by simp, rfl⟩,
    coreString_hasString 0 [some (.Slice (.Basic .Uint8)), some (.Basic .UntypedString)]
      (.Basic .String) (by decide) ⟨.Basic .UntypedString, by simp, rfl⟩⟩

/-- C8: for a type parameter whose constraint set is exactly `string` and
`[]byte`, in either enumeration order, `coreType` returns nil and `coreString`
returns `Typ[String]`. -/
theorem core_string_bytes (id : Nat) :
    coreType (.TypeParam id [some (Typ .String), some (NewSlice universeByte)]) = none ∧
    coreType (.TypeParam id [some (NewSlice universeByte), some (Typ .String)]) = none ∧
    coreString (.TypeParam id [some (Typ .String), some (NewSlice universeByte)])
      = some (Typ .String) ∧
    coreString (.TypeParam id [some (NewSlice universeByte), some (Typ .String)])
      = some (Typ .String) := by
  refine ⟨?_, ?_, ?_, ?_⟩ <;> rfl

/-- C9: a type parameter whose constraint set contains a send-only and a
receive-only channel of one element type has no core type, for `coreType` and
for `coreString`, whatever the other terms and the enumeration order. -/
theorem core_sendOnly_recvOnly (id : Nat) (terms : List (Option Ty)) (e : Ty)
    (hs : some (Ty.Chan .SendOnly e) ∈ terms) (hr : some (Ty.Chan .RecvOnly e) ∈ terms) :
    coreType (.TypeParam id terms) = none ∧ coreString (.TypeParam id terms) = none := by
  refine ⟨coreType_sendOnly_recvOnly id terms e hs hr, ?_⟩
  rw [coreString_eq]
  have hs' : some (Ty.Chan .SendOnly e) ∈ terms.map (Option.map substString) := by
    have := List.mem_map_of_mem (Option.map substString) hs
    simpa [substString, isString] using this
  have hr' : some (Ty.Chan .RecvOnly e) ∈ terms.map (Option.map substString) := by
    have := List.mem_map_of_mem (Option.map substString) hr
    simpa [substString, isString] using this
  rw [coreType_sendOnly_recvOnly id _ e hs' hr']

theorem core_sendOnly_recvOnly_witness :
    some (Ty.Chan .SendOnly (.Basic .Int)) ∈
        [some (Ty.Chan .SendRecv (.Basic .Int)), some (Ty.Chan .RecvOnly (.Basic .Int)),
          some (Ty.Chan .SendOnly (.Basic .Int))] ∧
    some (Ty.Chan .RecvOnly (.Basic .Int)) ∈
        [some (Ty.Chan .SendRecv (.Basic .Int)), some (Ty.Chan .RecvOnly (.Basic .Int)),
          some (Ty.Chan .SendOnly (.Basic .Int))] ∧
    coreType (.TypeParam 0
        [some (Ty.Chan .SendRecv (.Basic .Int)), some (Ty.Chan .RecvOnly (.Basic .Int)),
          some (Ty.Chan .SendOnly (.Basic .Int))]) = none ∧
    coreString (.TypeParam 0
        [some (Ty.Chan .SendRecv (.Basic .Int)), some (Ty.Chan .RecvOnly (.Basic .Int)),
          some (Ty.Chan .SendOnly (.Basic .Int))]) = none :=
  ⟨by simp, by simp,
    core_sendOnly_recvOnly 0
      [some (Ty.Chan .SendRecv (.Basic .Int)), some (Ty.Chan .RecvOnly (.Basic .Int)),
        some (Ty.Chan .SendOnly (.Basic .Int))] (.Basic .Int) (by simp) (by simp)⟩

/-- C10: for a type parameter whose constraint set is empty, `coreType` and
`coreString` return nil; the same holds when the enumeration reports the empty
set by handing nil to the visitor. -/
theorem core_empty (id : Nat) :
    coreType (.TypeParam id []) = none ∧ coreString (.TypeParam id []) = none ∧
    coreType (.TypeParam id [none]) = none ∧ coreString (.TypeParam id [none]) = none := by
  refine ⟨?_, ?_, ?_, ?_⟩ <;> rfl

/-- C12: when `coreType` returns a non-nil `r` on a type parameter, every term of
the constraint set has a non-nil underlying type `u` with `match r u = r`. -/
theorem coreType_covers_terms (id : Nat) (terms : List (Option Ty)) (r : Ty)
    (h : coreType (.TypeParam id terms) = some r) :
    ∀ w ∈ terms, ∃ u, w = some u ∧ match_ r u ≠ none ∧ match_ r u = some r := by
  intro w hw
  obtain ⟨x, r', hx, hr', hm⟩ :=
    (underIs_coreTypeVisit_covers terms none (some r) (coreType_eq_some id terms r h)).1 w hw
  injection hr' with hr'
  subst hr'
  exact ⟨x, hx, by rw [hm]; simp, hm⟩

theorem coreType_covers_terms_witness :
    coreType (.TypeParam 0
        [some (Ty.Chan .SendRecv (.Basic .Int)), some (Ty.Chan .SendOnly (.Basic .Int))])
      = some (Ty.Chan .SendOnly (.Basic .Int)) ∧
    ∀ w ∈ [some (Ty.Chan .SendRecv (.Basic .Int)), some (Ty.Chan .SendOnly (.Basic .Int))],
      ∃ u, w = some u ∧ match_ (Ty.Chan .SendOnly (.Basic .Int)) u ≠ none ∧
        match_ (Ty.Chan .SendOnly (.Basic .Int)) u = some (Ty.Chan .SendOnly (.Basic .Int)) :=
  ⟨by decide,
    coreType_covers_terms 0
      [some (Ty.Chan .SendRecv (.Basic .Int)), some (Ty.Chan .SendOnly (.Basic .Int))]
      (Ty.Chan .SendOnly (.Basic .Int)) (by decide)⟩

/-- C13: a non-nil result of `coreType` on a type parameter is the underlying type
of one of the terms; a non-nil result of `coreString` is the underlying type of
one of the terms, or the string type when some term is string-like. -/
theorem core_result_mem (id : Nat) (terms : List (Option Ty)) (r : Ty) :
    (coreType (.TypeParam id terms) = some r → some r ∈ terms) ∧
    (coreString (.TypeParam id terms) = some r →
      some r ∈ terms ∨ (r = Typ .String ∧ ∃ v, some v ∈ terms ∧ isString v = true)) := by
  have hT : ∀ ts : List (Option Ty), coreType (.TypeParam id ts) = some r → some r ∈ ts := by
    intro ts h
    rcases underIs_coreTypeVisit_mem ts none (some r) (coreType_eq_some id ts r h) r rfl
      with h1 | h1
    · exact absurd h1 (by simp)
    · exact h1
  refine ⟨hT terms, ?_⟩
  intro h
  rw [coreString_eq] at h
  cases hc : coreType (.TypeParam id (terms.map (Option.map substString))) with
  | none => simp [hc] at h
  | some r' =>
    simp only [hc] at h
    cases hany : terms.any isStringTerm with
    | true =>
      simp only [hany, if_true, Option.some.injEq] at h
      obtain ⟨w, hw, hsw⟩ := List.any_eq_true.1 hany
      cases w with
      | none => simp [isStringTerm] at hsw
      | some v => exact Or.inr ⟨h.symm, v, hw, by simpa [isStringTerm] using hsw⟩
    | false =>
      simp only [hany, Bool.false_eq_true, if_false, Option.some.injEq] at h
      subst h
      rw [map_substString_of_not_any terms hany] at hc
      exact Or.inl (hT terms hc)

theorem core_result_mem_witness :
    (coreType (.TypeParam 0
        [some (Ty.Chan .SendRecv (.Basic .Int)), some (Ty.Chan .RecvOnly (.Basic .Int))])
      = some (Ty.Chan .RecvOnly (.Basic .Int))) ∧
    some (Ty.Chan .RecvOnly (.Basic .Int)) ∈
      [some (Ty.Chan .SendRecv (.Basic .Int)), some (Ty.Chan .RecvOnly (.Basic .Int))] ∧
    coreString (.TypeParam 0 [some (Ty.Basic .UntypedString)]) = some (Typ .String) ∧
    (some (Typ .String) ∈ [some (Ty.Basic .UntypedString)] ∨
      (Typ .String = Typ .String ∧
        ∃ v, some v ∈ [some (Ty.Basic .UntypedString)] ∧ isString v = true)) :=
  ⟨by decide,
    (core_result_mem 0
      [some (Ty.Chan .SendRecv (.Basic .Int)), some (Ty.Chan .RecvOnly (.Basic .Int))]
      (Ty.Chan .RecvOnly (.Basic .Int))).1 (by decide),
    by decide,
    (core_result_mem 0 [some (Ty.Basic .UntypedString)] (Typ .String)).2 (by decide)⟩

/-- C14: enumeration order does not affect the result: over a permutation of the
term list `coreType` returns the same result, and so does `coreString`. -/
theorem core_perm (id : Nat) (l1 l2 : List (Option Ty)) (h : l1.Perm l2) :
    coreType (.TypeParam id l1) = coreType (.TypeParam id l2) ∧
    coreString (.TypeParam id l1) = coreString (.TypeParam id l2) := by
  refine ⟨coreType_perm id l1 l2 h, ?_⟩
  rw [coreString_eq, coreString_eq,
    coreType_perm id _ _ (h.map (Option.map substString))]
  have hany : l1.any isStringTerm = l2.any isStringTerm := by
    apply Bool.eq_iff_iff.2
    simp only [List.any_eq_true]
    constructor
    · rintro ⟨w, hw, hs⟩
      exact ⟨w, h.mem_iff.1 hw, hs⟩
    · rintro ⟨w, hw, hs⟩
      exact ⟨w, h.mem_iff.2 hw, hs⟩
  rw [hany]

theorem core_perm_witness :
    [some (Ty.Chan .SendRecv (.Basic .Int)), some (Ty.Chan .SendOnly (.Basic .Int))].Perm
      [some (Ty.Chan .SendOnly (.Basic .Int)), some (Ty.Chan .SendRecv (.Basic .Int))] ∧
    coreType (.TypeParam 0
        [some (Ty.Chan .SendRecv (.Basic .Int)), some (Ty.Chan .SendOnly (.Basic .Int))])
      = coreType (.TypeParam 0
        [some (Ty.Chan .SendOnly (.Basic .Int)), some (Ty.Chan .SendRecv (.Basic .Int))]) ∧
    coreString (.TypeParam 0
        [some (Ty.Chan .SendRecv (.Basic .Int)), some (Ty.Chan .SendOnly (.Basic .Int))])
      = coreString (.TypeParam 0
        [some (Ty.Chan .SendOnly (.Basic .Int)), some (Ty.Chan .SendRecv (.Basic .Int))]) :=
  ⟨List.Perm.swap _ _ _,
    core_perm 0
      [some (Ty.Chan .SendRecv (.Basic .Int)), some (Ty.Chan .SendOnly (.Basic .Int))]
      [some (Ty.Chan .SendOnly (.Basic .Int)), some (Ty.Chan .SendRecv (.Basic .Int))]
      (List.Perm.swap _ _ _)⟩

/-- C15: for a type parameter whose terms are all channels of one element type
`e`: if some term is restricted and all restricted terms have its direction `d0`,
`coreType` returns the restricted channel `Chan d0 e`; if two restricted terms
have different directions, `coreType` returns nil. (With unrestricted terms only,
the result is the unrestricted channel.) -/
theorem coreType_chan_only (id : Nat) (terms : List (Option Ty)) (e : Ty)
    (hall : ∀ w ∈ terms, ∃ d, w = some (Ty.Chan d e)) :
    (∀ d0, d0 ≠ ChanDir.SendRecv → some (Ty.Chan d0 e) ∈ terms →
      (∀ d, some (Ty.Chan d e) ∈ terms → d = ChanDir.SendRecv ∨ d = d0) →
      coreType (.TypeParam id terms) = some (Ty.Chan d0 e)) ∧
    ((∃ d1 d2, d1 ≠ ChanDir.SendRecv ∧ d2 ≠ ChanDir.SendRecv ∧ d1 ≠ d2 ∧
        some (Ty.Chan d1 e) ∈ terms ∧ some (Ty.Chan d2 e) ∈ terms) →
      coreType (.TypeParam id terms) = none) ∧
    (terms ≠ [] → (∀ d, some (Ty.Chan d e) ∈ terms → d = ChanDir.SendRecv) →
      coreType (.TypeParam id terms) = some (Ty.Chan .SendRecv e)) := by
  refine ⟨?_, ?_, ?_⟩
  · intro d0 _ hmem hsame
    rw [coreType_eq_some_iff]
    refine ⟨hmem, ?_⟩
    intro w hw
    obtain ⟨d, hd⟩ := hall w hw
    subst hd
    refine ⟨_, rfl, ?_⟩
    rcases hsame d hw with h | h
    · subst h
      exact (match_eq_left_iff _ _).2 (Or.inr ⟨d0, e, rfl, rfl⟩)
    · subst h
      exact match_of_eq _
  · rintro ⟨d1, d2, h1, h2, h12, hm1, hm2⟩
    cases d1 <;> cases d2 <;> simp at h1 h2 h12
    · exact coreType_sendOnly_recvOnly id terms e hm1 hm2
    · exact coreType_sendOnly_recvOnly id terms e hm2 hm1
  · intro hne hsr
    rw [coreType_eq_some_iff]
    have hall' : ∀ w ∈ terms, w = some (Ty.Chan .SendRecv e) := by
      intro w hw
      obtain ⟨d, hd⟩ := hall w hw
      subst hd
      rw [hsr d hw]
    refine ⟨?_, ?_⟩
    · cases terms with
      | nil => exact absurd rfl hne
      | cons w rest =>
        rw [← hall' w (List.mem_cons_self _ _)]
        exact List.mem_cons_self _ _
    · intro w hw
      exact ⟨_, hall' w hw, match_of_eq _⟩

theorem coreType_chan_only_witness :
    (∀ w ∈ [some (Ty.Chan .SendRecv (.Basic .Int)), some (Ty.Chan .RecvOnly (.Basic .Int)),
        some (Ty.Chan .SendRecv (.Basic .Int))], ∃ d, w = some (Ty.Chan d (.Basic .Int))) ∧
    coreType (.TypeParam 0
        [some (Ty.Chan .SendRecv (.Basic .Int)), some (Ty.Chan .RecvOnly (.Basic .Int)),
          some (Ty.Chan .SendRecv (.Basic .Int))])
      = some (Ty.Chan .RecvOnly (.Basic .Int)) :=
  ⟨by simp,
    (coreType_chan_only 0
      [some (Ty.Chan .SendRecv (.Basic .Int)), some (Ty.Chan .RecvOnly (.Basic .Int)),
        some (Ty.Chan .SendRecv (.Basic .Int))] (.Basic .Int) (by simp)).1
      .RecvOnly (by decide) (by simp) (by simp)⟩

/-- C16: short-circuit. If the fold of `coreType` (of `coreString`) over `p` fails,
it fails at one term `u` of `p`, after the terms `q` before it, and for every
list `s` enumerated after `p` the result is nil and the visitor is applied to
exactly `q` and `u`, to no later term of `p` and to no term of `s`. -/
theorem core_short_circuit (id : Nat) (p : List (Option Ty)) :
    ((underIs p coreTypeVisit none).1 = false →
      ∃ q u t, p = q ++ u :: t ∧ ∀ s,
        coreType (.TypeParam id (p ++ s)) = none ∧
        (underIs (p ++ s) (logVisit coreTypeVisit) (none, [])).2.2 = q ++ [u]) ∧
    ((underIs p coreStringVisit (none, false)).1 = false →
      ∃ q u t, p = q ++ u :: t ∧ ∀ s,
        coreString (.TypeParam id (p ++ s)) = none ∧
        (underIs (p ++ s) (logVisit coreStringVisit) ((none, false), [])).2.2 = q ++ [u]) := by
  constructor
  · intro h
    obtain ⟨q, u, t, hp, hrun⟩ := underIs_fail_split coreTypeVisit p none h
    refine ⟨q, u, t, hp, ?_⟩
    intro s
    have hrun' := hrun (t ++ s) []
    have happ : q ++ u :: (t ++ s) = p ++ s := by rw [hp]; simp
    rw [happ] at hrun'
    have hfst := (underIs_logVisit coreTypeVisit (p ++ s) none []).1
    rw [hrun'] at hfst
    refine ⟨?_, by rw [hrun']; simp⟩
    simp only [coreType]
    cases hB : underIs (p ++ s) coreTypeVisit none with
    | mk ok su' =>
      rw [hB] at hfst
      simp only at hfst
      subst hfst
      rfl
  · intro h
    obtain ⟨q, u, t, hp, hrun⟩ := underIs_fail_split coreStringVisit p (none, false) h
    refine ⟨q, u, t, hp, ?_⟩
    intro s
    have hrun' := hrun (t ++ s) []
    have happ : q ++ u :: (t ++ s) = p ++ s := by rw [hp]; simp
    rw [happ] at hrun'
    have hfst := (underIs_logVisit coreStringVisit (p ++ s) (none, false) []).1
    rw [hrun'] at hfst
    refine ⟨?_, by rw [hrun']; simp⟩
    simp only [coreString]
    cases hB : underIs (p ++ s) coreStringVisit (none, false) with
    | mk ok su' =>
      rw [hB] at hfst
      simp only at hfst
      subst hfst
      rfl

theorem core_short_circuit_witness :
    (underIs [some (Ty.Slice (.Basic .Int)), some (Ty.Basic .Bool), none] coreTypeVisit none).1
      = false ∧
    (underIs [some (Ty.Slice (.Basic .Int)), some (Ty.Basic .Bool), none] coreStringVisit
      (none, false)).1 = false ∧
    (∃ q u t, [some (Ty.Slice (.Basic .Int)), some (Ty.Basic .Bool), none] = q ++ u :: t ∧ ∀ s,
      coreType (.TypeParam 0 ([some (Ty.Slice (.Basic .Int)), some (Ty.Basic .Bool), none] ++ s))
        = none ∧
      (underIs ([some (Ty.Slice (.Basic .Int)), some (Ty.Basic .Bool), none] ++ s)
        (logVisit coreTypeVisit) (none, [])).2.2 = q ++ [u]) ∧
    (∃ q u t, [some (Ty.Slice (.Basic .Int)), some (Ty.Basic .Bool), none] = q ++ u :: t ∧ ∀ s,
      coreString (.TypeParam 0 ([some (Ty.Slice (.Basic .Int)), some (Ty.Basic .Bool), none] ++ s))
        = none ∧
      (underIs ([some (Ty.Slice (.Basic .Int)), some (Ty.Basic .Bool), none] ++ s)
        (logVisit coreStringVisit) ((none, false), [])).2.2 = q ++ [u]) :=
  ⟨by decide, by decide,
    (core_short_circuit 0 [some (Ty.Slice (.Basic .Int)), some (Ty.Basic .Bool), none]).1
      (by decide),
    (core_short_circuit 0 [some (Ty.Slice (.Basic .Int)), some (Ty.Basic .Bool), none]).2
      (by decide)⟩

/-- C17: for a type parameter whose constraint set has exactly one term, with a
non-nil underlying type `u` that is not string-like, `coreType` and `coreString`
return `u` unchanged. -/
theorem core_single (id : Nat) (u : Ty) (h : isString u = false) :
    coreType (.TypeParam id [some u]) = some u ∧
    coreString (.TypeParam id [some u]) = some u := by
  constructor
  · rfl
  · simp [coreString, underIs, coreStringVisit, h]

theorem core_single_witness :
    isString (Ty.Slice (.Basic .Int)) = false ∧
    coreType (.TypeParam 0 [some (Ty.Slice (.Basic .Int))]) = some (Ty.Slice (.Basic .Int)) ∧
    coreString (.TypeParam 0 [some (Ty.Slice (.Basic .Int))]) = some (Ty.Slice (.Basic .Int)) :=
  ⟨rfl, core_single 0 (Ty.Slice (.Basic .Int)) rfl⟩

/-- C19: `coreString` is `coreType` after the string substitution. With `us'` the
terms `us` in which every string-like type is replaced by `[]byte`:
`coreString` is nil iff `coreType` over `us'` is nil; when it is not nil,
`coreString` returns `Typ[String]` if some term of `us` is string-like and
otherwise what `coreType` returns over `us`; the two agree on every constraint
set without a string-like term and on every type that is not a type parameter. -/
theorem coreString_refines_coreType (id : Nat) (us : List (Option Ty)) :
    (coreString (.TypeParam id us) = none ↔
      coreType (.TypeParam id (us.map (Option.map substString))) = none) ∧
    (coreString (.TypeParam id us) ≠ none →
      ((∃ v, some v ∈ us ∧ isString v = true) →
        coreString (.TypeParam id us) = some (Typ .String)) ∧
      ((¬ ∃ v, some v ∈ us ∧ isString v = true) →
        coreString (.TypeParam id us) = coreType (.TypeParam id us))) ∧
    ((¬ ∃ v, some v ∈ us ∧ isString v = true) →
      coreString (.TypeParam id us) = coreType (.TypeParam id us)) ∧
    (∀ t : Ty, (∀ i ts, t ≠ .TypeParam i ts) → coreString t = coreType t) := by
  have hno : (¬ ∃ v, some v ∈ us ∧ isString v = true) →
      coreString (.TypeParam id us) = coreType (.TypeParam id us) := by
    intro h
    have hany : us.any isStringTerm = false := by
      cases hb : us.any isStringTerm with
      | false => rfl
      | true => exact absurd ((any_isStringTerm_iff us).1 hb) h
    rw [coreString_eq, map_substString_of_not_any us hany, hany]
    cases coreType (.TypeParam id us) <;> simp
  refine ⟨?_, ?_, hno, ?_⟩
  · rw [coreString_eq]
    cases coreType (.TypeParam id (us.map (Option.map substString))) with
    | none => simp
    | some r =>
      simp only [reduceCtorEq, iff_false]
      split <;> simp
  · intro hne
    refine ⟨?_, hno⟩
    intro hstr
    have hany := (any_isStringTerm_iff us).2 hstr
    rw [coreString_eq] at hne ⊢
    cases hc : coreType (.TypeParam id (us.map (Option.map substString))) with
    | none => simp [hc] at hne
    | some r => simp [hany]
  · intro t ht
    cases t <;> first | rfl | exact absurd rfl (ht _ _)

theorem coreString_refines_coreType_witness :
    coreString (.TypeParam 0 [some (Ty.Basic .UntypedString), some (Ty.Slice (.Basic .Uint8))])
      ≠ none ∧
    (∃ v, some v ∈ [some (Ty.Basic .UntypedString), some (Ty.Slice (.Basic .Uint8))] ∧
      isString v = true) ∧
    coreString (.TypeParam 0 [some (Ty.Basic .UntypedString), some (Ty.Slice (.Basic .Uint8))])
      = some (Typ .String) :=
  ⟨by decide, ⟨.Basic .UntypedString, by simp, rfl⟩,
    ((coreString_refines_coreType 0
      [some (Ty.Basic .UntypedString), some (Ty.Slice (.Basic .Uint8))]).2.1 (by decide)).1
      ⟨.Basic .UntypedString, by simp, rfl⟩⟩

end Types2

namespace Net

/-- The probe makes one call to `sysSocket` and closes the socket when there is no
error. -/
theorem initMPTCPavailable_calls {Ctx Addr Conn Lis Err : Type}
    (sys : Sys Ctx Addr Conn Lis Err) (st : State) :
    (initMPTCPavailable sys st).calls =
      st.calls ++ [Call.sysSocket sys.AF_INET sys.SOCK_STREAM _IPPROTO_MPTCP] ++
        (if (sys.sysSocket st.calls sys.AF_INET sys.SOCK_STREAM _IPPROTO_MPTCP).2.isNone
          then [Call.closeFunc (sys.sysSocket st.calls sys.AF_INET sys.SOCK_STREAM
            _IPPROTO_MPTCP).1]
          else []) := by
  simp only [initMPTCPavailable]
  cases h : (sys.sysSocket st.calls sys.AF_INET sys.SOCK_STREAM _IPPROTO_MPTCP).2 with
  | none => simp [errorsIs]
  | some e =>
    simp only [errorsIs, Option.isNone_some]
    split
    · simp
    · split <;> simp

/-- C20: `initMPTCPavailable`, with `err` the error of the probe socket creation,
sets `mptcpAvailable` to true iff `err` is neither `EPROTONOSUPPORT` nor `EINVAL`
(so also when `err` is nil, and when it is any other error), leaves it as it is
otherwise, and closes the probe socket exactly when `err` is nil. -/
theorem initMPTCPavailable_spec {Ctx Addr Conn Lis Err : Type}
    (sys : Sys Ctx Addr Conn Lis Err) (st : State) (hinit : st.mptcpAvailable = false) :
    ((initMPTCPavailable sys st).mptcpAvailable = true ↔
      (errorsIs sys (sys.sysSocket st.calls sys.AF_INET sys.SOCK_STREAM _IPPROTO_MPTCP).2
          Errno.EPROTONOSUPPORT = false ∧
        errorsIs sys (sys.sysSocket st.calls sys.AF_INET sys.SOCK_STREAM _IPPROTO_MPTCP).2
          Errno.EINVAL = false)) ∧
    ((sys.sysSocket st.calls sys.AF_INET sys.SOCK_STREAM _IPPROTO_MPTCP).2 = none →
      (initMPTCPavailable sys st).mptcpAvailable = true) ∧
    (∀ e, (sys.sysSocket st.calls sys.AF_INET sys.SOCK_STREAM _IPPROTO_MPTCP).2 = some e →
      sys.isErrno e Errno.EPROTONOSUPPORT = false → sys.isErrno e Errno.EINVAL = false →
      (initMPTCPavailable sys st).mptcpAvailable = true) ∧
    (Call.closeFunc (sys.sysSocket st.calls sys.AF_INET sys.SOCK_STREAM _IPPROTO_MPTCP).1
        ∈ (initMPTCPavailable sys st).calls.drop st.calls.length ↔
      (sys.sysSocket st.calls sys.AF_INET sys.SOCK_STREAM _IPPROTO_MPTCP).2 = none) := by
  have hiff : (initMPTCPavailable sys st).mptcpAvailable = true ↔
      (errorsIs sys (sys.sysSocket st.calls sys.AF_INET sys.SOCK_STREAM _IPPROTO_MPTCP).2
          Errno.EPROTONOSUPPORT = false ∧
        errorsIs sys (sys.sysSocket st.calls sys.AF_INET sys.SOCK_STREAM _IPPROTO_MPTCP).2
          Errno.EINVAL = false) := by
    simp only [initMPTCPavailable]
    cases h1 : errorsIs sys (sys.sysSocket st.calls sys.AF_INET sys.SOCK_STREAM
      _IPPROTO_MPTCP).2 Errno.EPROTONOSUPPORT
    · cases h2 : errorsIs sys (sys.sysSocket st.calls sys.AF_INET sys.SOCK_STREAM
        _IPPROTO_MPTCP).2 Errno.EINVAL
      · simp only [Bool.false_eq_true, if_false, and_self, iff_true]
        split <;> rfl
      · simp [hinit]
    · simp [hinit]
  refine ⟨hiff, ?_, ?_, ?_⟩
  · intro hnil
    rw [hiff, hnil]
    exact ⟨rfl, rfl⟩
  · intro e he h1 h2
    rw [hiff, he]
    exact ⟨h1, h2⟩
  · rw [initMPTCPavailable_calls, List.append_assoc, List.drop_left]
    cases h : (sys.sysSocket st.calls sys.AF_INET sys.SOCK_STREAM _IPPROTO_MPTCP).2 with
    | none => simp
    | some e => simp

theorem initMPTCPavailable_spec_witness :
    (⟨false, false, []⟩ : State).mptcpAvailable = false ∧
    (initMPTCPavailable (sysExample (some 5) none) ⟨false, false, []⟩).mptcpAvailable = true ∧
    (initMPTCPavailable (sysExample (some 93) none) ⟨false, false, []⟩).mptcpAvailable = false ∧
    ((initMPTCPavailable (sysExample none none) ⟨false, false, []⟩).mptcpAvailable = true ↔
      (errorsIs (sysExample none none)
          ((sysExample none none).sysSocket [] (sysExample none none).AF_INET
            (sysExample none none).SOCK_STREAM _IPPROTO_MPTCP).2 Errno.EPROTONOSUPPORT = false ∧
        errorsIs (sysExample none none)
          ((sysExample none none).sysSocket [] (sysExample none none).AF_INET
            (sysExample none none).SOCK_STREAM _IPPROTO_MPTCP).2 Errno.EINVAL = false)) :=
  ⟨rfl, by decide, by decide,
    (initMPTCPavailable_spec (sysExample none none) ⟨false, false, []⟩ rfl).1⟩

/-- C18: `dialMPTCP` returns the MPTCP connection with a nil error exactly when
`supportsMultipathTCP()` is true and the MPTCP dial returns no error; in every
other case it returns the result of the plain `dialTCP` call with the same
arguments, and when MPTCP is unsupported the MPTCP dial is not attempted.
`listenMPTCP` has the same structure with `listenTCPProto` and `listenTCP`. -/
theorem mptcp_fallback {Ctx Addr Conn Lis Err : Type} (sys : Sys Ctx Addr Conn Lis Err)
    (st : State) (ctx : Ctx) (laddr raddr : Addr) (ok : Bool) (st1 : State)
    (hsup : supportsMultipathTCP sys st = (ok, st1)) :
    (ok = true → (sys.doDialTCPProto st1.calls ctx laddr raddr _IPPROTO_MPTCP).2 = none →
      dialMPTCP sys st ctx laddr raddr =
        (((sys.doDialTCPProto st1.calls ctx laddr raddr _IPPROTO_MPTCP).1, none),
          { st1 with calls := st1.calls ++ [Call.doDialTCPProto _IPPROTO_MPTCP] })) ∧
    (ok = true → (sys.doDialTCPProto st1.calls ctx laddr raddr _IPPROTO_MPTCP).2 ≠ none →
      dialMPTCP sys st ctx laddr raddr =
        (sys.dialTCP (st1.calls ++ [Call.doDialTCPProto _IPPROTO_MPTCP]) ctx laddr raddr,
          { st1 with calls :=
              st1.calls ++ [Call.doDialTCPProto _IPPROTO_MPTCP] ++ [Call.dialTCP] })) ∧
    (ok = false →
      dialMPTCP sys st ctx laddr raddr =
        (sys.dialTCP st1.calls ctx laddr raddr,
          { st1 with calls := st1.calls ++ [Call.dialTCP] })) ∧
    (ok = true → (sys.listenTCPProto st1.calls ctx laddr _IPPROTO_MPTCP).2 = none →
      listenMPTCP sys st ctx laddr =
        (((sys.listenTCPProto st1.calls ctx laddr _IPPROTO_MPTCP).1, none),
          { st1 with calls := st1.calls ++ [Call.listenTCPProto _IPPROTO_MPTCP] })) ∧
    (ok = true → (sys.listenTCPProto st1.calls ctx laddr _IPPROTO_MPTCP).2 ≠ none →
      listenMPTCP sys st ctx laddr =
        (sys.listenTCP (st1.calls ++ [Call.listenTCPProto _IPPROTO_MPTCP]) ctx laddr,
          { st1 with calls :=
              st1.calls ++ [Call.listenTCPProto _IPPROTO_MPTCP] ++ [Call.listenTCP] })) ∧
    (ok = false →
      listenMPTCP sys st ctx laddr =
        (sys.listenTCP st1.calls ctx laddr,
          { st1 with calls := st1.calls ++ [Call.listenTCP] })) := by
  refine ⟨?_, ?_, ?_, ?_, ?_, ?_⟩
  · intro hok herr
    subst hok
    simp [dialMPTCP, hsup, herr]
  · intro hok herr
    subst hok
    cases h : (sys.doDialTCPProto st1.calls ctx laddr raddr _IPPROTO_MPTCP).2 with
    | none => exact absurd h herr
    | some e => simp [dialMPTCP, hsup, h]
  · intro hok
    subst hok
    simp [dialMPTCP, hsup]
  · intro hok herr
    subst hok
    simp [listenMPTCP, hsup, herr]
  · intro hok herr
    subst hok
    cases h : (sys.listenTCPProto st1.calls ctx laddr _IPPROTO_MPTCP).2 with
    | none => exact absurd h herr
    | some e => simp [listenMPTCP, hsup, h]
  · intro hok
    subst hok
    simp [listenMPTCP, hsup]

theorem mptcp_fallback_witness :
    supportsMultipathTCP (sysExample none (some 92)) ⟨false, false, []⟩
      = (true, ⟨true, true, [Call.sysSocket 2 1 0x106, Call.closeFunc 3]⟩) ∧
    dialMPTCP (sysExample none (some 92)) ⟨false, false, []⟩ 0 1 2 =
      ((20, none), ⟨true, true, [Call.sysSocket 2 1 0x106, Call.closeFunc 3,
        Call.doDialTCPProto 0x106, Call.dialTCP]⟩) ∧
    dialMPTCP (sysExample (some 93) none) ⟨false, false, []⟩ 0 1 2 =
      ((20, none), ⟨true, false, [Call.sysSocket 2 1 0x106, Call.dialTCP]⟩) ∧
    dialMPTCP (sysExample none none) ⟨false, false, []⟩ 0 1 2 =
      ((10, none), ⟨true, true, [Call.sysSocket 2 1 0x106, Call.closeFunc 3,
        Call.doDialTCPProto 0x106]⟩) :=
  ⟨by decide,
    (mptcp_fallback (sysExample none (some 92)) ⟨false, false, []⟩ 0 1 2 true
      ⟨true, true, [Call.sysSocket 2 1 0x106, Call.closeFunc 3]⟩ (by decide)).2.1 rfl
      (by decide),
    (mptcp_fallback (sysExample (some 93) none) ⟨false, false, []⟩ 0 1 2 false
      ⟨true, false, [Call.sysSocket 2 1 0x106]⟩ (by decide)).2.2.1 rfl,
    (mptcp_fallback (sysExample none none) ⟨false, false, []⟩ 0 1 2 true
      ⟨true, true, [Call.sysSocket 2 1 0x106, Call.closeFunc 3]⟩ (by decide)).1 rfl
      (by decide)⟩

end Net
